import Mathlib

namespace CloudSync

/-- A filesystem path, as a list of name segments. -/
abbrev Path := List String

/-- A node of a file-system tree, as seen by the iterator's classifier.
`bad` marks an entry whose classification or child enumeration fails
(e.g. permission denied). -/
inductive FSNode where
  | file (name : String)
  | symlink (name : String)
  | other (name : String)
  | bad (name : String)
  | dir (name : String) (children : List FSNode)

/-- The name of a node. -/
def FSNode.name : FSNode → String
  | .file n => n
  | .symlink n => n
  | .other n => n
  | .bad n => n
  | .dir n _ => n

/-- Whether a node is a directory. -/
def FSNode.isDirNode : FSNode → Bool
  | .dir _ _ => true
  | _ => false

mutual
/-- Weight of a node, used as a termination measure for the traversal. -/
def nodeW : FSNode → Nat
  | .dir _ ch => 2 + listW ch
  | _ => 1
/-- Weight of a list of nodes. -/
def listW : List FSNode → Nat
  | [] => 0
  | c :: cs => nodeW c + listW cs
end

/-- Whether some node in the list bears the given name. -/
def nameIn (n : String) : List FSNode → Bool
  | [] => false
  | c :: cs => (c.name == n) || nameIn n cs

mutual
/-- Whether the tree below a node has no duplicate sibling names. -/
def wfNode : FSNode → Bool
  | .dir _ ch => wfList ch
  | _ => true
/-- Whether a list of sibling nodes has pairwise distinct names, recursively. -/
def wfList : List FSNode → Bool
  | [] => true
  | c :: cs => !(nameIn c.name cs) && wfNode c && wfList cs
end

mutual
/-- Whether every entry below a node is accessible (no `bad` node anywhere). -/
def allGoodNode : FSNode → Bool
  | .dir _ ch => allGoodList ch
  | .bad _ => false
  | _ => true
/-- Whether every entry in a list of trees is accessible. -/
def allGoodList : List FSNode → Bool
  | [] => true
  | c :: cs => allGoodNode c && allGoodList cs
end

/-- Modelled from the spec: a Directory Frame — one open directory's pending,
not-yet-yielded children (the enumeration cursor), together with the
directory's path.  The repository's `fileiterator.cpp`/`fileiterator.hpp`
are not part of the available sources; this model follows spec sections 3
and 4.1. -/
structure Frame where
  path : Path
  pending : List FSNode

/-- Modelled from the spec: the Resilient Iterator's state — the Traversal
Stack of Directory Frames (innermost first) and the current entry (path and
whether it is a directory), `none` before the first call and after
exhaustion. -/
structure IterState where
  stack : List Frame
  current : Option (Path × Bool)

/-- Modelled from the spec: the tagged outcome of one `produceNext()`
(`nextEntry`) call — a yielded path with its directory flag, a per-entry
failure for the consumed candidate's path, or the terminal signal. -/
inductive StepResult where
  | yielded (p : Path) (isDir : Bool)
  | failed (p : Path)
  | done

/-- Modelled from the spec (section 4.1, `produceNext()` steps 1-3),
recursing over the stack: an exhausted top frame is popped and the next
frame consulted; otherwise the first pending child is consumed — a `bad`
child raises a per-entry failure with the cursor already advanced, a
directory child is yielded and a frame for it pushed, and any other child
is yielded without pushing. -/
def pnAux (cur : Option (Path × Bool)) : List Frame → StepResult × IterState
  | [] => (.done, ⟨[], none⟩)
  | ⟨_, []⟩ :: rest => pnAux cur rest
  | ⟨dp, c :: cs⟩ :: rest =>
    match c with
    | .bad n => (.failed (dp ++ [n]), ⟨⟨dp, cs⟩ :: rest, cur⟩)
    | .dir n ch =>
      (.yielded (dp ++ [n]) true,
        ⟨⟨dp ++ [n], ch⟩ :: ⟨dp, cs⟩ :: rest, some (dp ++ [n], true)⟩)
    | .file n => (.yielded (dp ++ [n]) false, ⟨⟨dp, cs⟩ :: rest, some (dp ++ [n], false)⟩)
    | .symlink n => (.yielded (dp ++ [n]) false, ⟨⟨dp, cs⟩ :: rest, some (dp ++ [n], false)⟩)
    | .other n => (.yielded (dp ++ [n]) false, ⟨⟨dp, cs⟩ :: rest, some (dp ++ [n], false)⟩)

/-- Modelled from the spec: `produceNext()` (the source's `nextEntry`). -/
def produceNext (s : IterState) : StepResult × IterState :=
  pnAux s.current s.stack

/-- Modelled from the spec: `currentDirectory()` — whether the
current-entry-kind is Directory. -/
def currentDirectory (s : IterState) : Bool :=
  match s.current with
  | some (_, d) => d
  | none => false

/-- Modelled from the spec: `skipDirectory()` — requires the current entry
to be a directory whose frame has been pushed but not yet explored; pops
that frame, so none of its descendants are ever visited.  Raises
`InvalidStateError` (modelled as `Except.error`) on a precondition
violation. -/
def skipDirectory (s : IterState) : Except Unit IterState :=
  match s.current with
  | some (p, true) =>
    match s.stack with
    | f :: rest => if f.path = p then .ok ⟨rest, s.current⟩ else .error ()
    | [] => .error ()
  | _ => .error ()

/-- Construction errors of the iterator (spec section 4.1 / 7). -/
inductive ConstructError where
  | notFoundError
  | invalidRootError
  | ioError

/-- What exists at the root path, as reported by the Entry Classifier:
nothing, or an object of the given kind (children listed for a directory). -/
inductive RootObject where
  | missing
  | fileObj
  | symlinkObj
  | otherObj
  | badObj
  | dirObj (children : List FSNode)

/-- The freshly constructed iterator over a root directory: one Directory
Frame for the root, current entry unset. -/
def initState (root : Path) (cs : List FSNode) : IterState :=
  ⟨[⟨root, cs⟩], none⟩

/-- Modelled from the spec: `Construct(rootPath)` — fails with
`NotFoundError` if nothing exists at the root, `InvalidRootError` if the
root exists but is not a directory, an I/O error if its classification
fails; otherwise pushes one Directory Frame for the root with the current
entry unset. -/
def construct (root : Path) : RootObject → Except ConstructError IterState
  | .missing => .error .notFoundError
  | .fileObj => .error .invalidRootError
  | .symlinkObj => .error .invalidRootError
  | .otherObj => .error .invalidRootError
  | .badObj => .error .ioError
  | .dirObj cs => .ok (initState root cs)

/-- Termination measure of a stack: each frame counts one plus the weight
of its pending children. -/
def stackW : List Frame → Nat
  | [] => 0
  | f :: rest => 1 + listW f.pending + stackW rest

/-- Modelled from the spec: the whole traversal — the sequence of
`produceNext()` outcomes from a given state until (and including) the
terminal signal. -/
def traverse (s : IterState) : List StepResult :=
  match h : produceNext s with
  | (.done, _) => [.done]
  | (.yielded p d, s') => .yielded p d :: traverse s'
  | (.failed p, s') => .failed p :: traverse s'
termination_by stackW s.stack
decreasing_by
  all_goals {
    have key : ∀ (st : List Frame) (cur : Option (Path × Bool)) (r : StepResult)
        (t : IterState), pnAux cur st = (r, t) → r ≠ StepResult.done →
        stackW t.stack < stackW st := by
      intro st
      induction st with
      | nil =>
        intro cur r t hh hr
        simp only [pnAux] at hh
        injection hh with h1 h2
        exact absurd h1.symm hr
      | cons f rest ih =>
        obtain ⟨dp, pending⟩ := f
        intro cur r t hh hr
        cases pending with
        | nil =>
          simp only [pnAux] at hh
          have := ih cur r t hh hr
          simp only [stackW, listW]
          omega
        | cons c cs =>
          cases c <;>
            (simp only [pnAux] at hh; injection hh with h1 h2; subst h2;
             simp only [stackW, listW, nodeW]; omega)
    exact key s.stack s.current _ s' h (by intro hc; cases hc)
  }

mutual
/-- The pre-order list of paths of the accessible objects of one tree,
rooted below `base`: the entry itself (unless it is `bad`), then, for a
directory, its descendants. -/
def nodeGood (base : Path) : FSNode → List Path
  | .file n => [base ++ [n]]
  | .symlink n => [base ++ [n]]
  | .other n => [base ++ [n]]
  | .bad _ => []
  | .dir n ch => (base ++ [n]) :: listGood (base ++ [n]) ch
/-- The pre-order path list of a list of sibling trees. -/
def listGood (base : Path) : List FSNode → List Path
  | [] => []
  | c :: cs => nodeGood base c ++ listGood base cs
end

mutual
/-- The pre-order list of paths of the inaccessible (`bad`) entries of one
tree rooted below `base`. -/
def nodeBad (base : Path) : FSNode → List Path
  | .bad n => [base ++ [n]]
  | .dir n ch => listBad (base ++ [n]) ch
  | _ => []
/-- The inaccessible-entry path list of a list of sibling trees. -/
def listBad (base : Path) : List FSNode → List Path
  | [] => []
  | c :: cs => nodeBad base c ++ listBad base cs
end

/-- All accessible paths still pending in a stack of frames. -/
def goodPaths : List Frame → List Path
  | [] => []
  | f :: rest => listGood f.path f.pending ++ goodPaths rest

/-- All inaccessible entry paths still pending in a stack of frames. -/
def badPaths : List Frame → List Path
  | [] => []
  | f :: rest => listBad f.path f.pending ++ badPaths rest

/-- The paths of the successfully yielded entries of a result sequence. -/
def yieldsOf : List StepResult → List Path
  | [] => []
  | .yielded p _ :: r => p :: yieldsOf r
  | .failed _ :: r => yieldsOf r
  | .done :: r => yieldsOf r

/-- The paths of the per-entry failures of a result sequence. -/
def failsOf : List StepResult → List Path
  | [] => []
  | .yielded _ _ :: r => failsOf r
  | .failed p :: r => p :: failsOf r
  | .done :: r => failsOf r

/-- Whether `d` is an initial segment of `p`. -/
def isPre : Path → Path → Bool
  | [], _ => true
  | _ :: _, [] => false
  | a :: as, b :: bs => a == b && isPre as bs

/-- Whether path `p` is located strictly under directory path `d`. -/
def isUnder (p d : Path) : Bool := isPre d p && Nat.blt d.length p.length

/-- The first node of the list bearing the given name, if any. -/
def findNode (n : String) : List FSNode → Option FSNode
  | [] => none
  | c :: cs => if c.name = n then some c else findNode n cs

/-- Looks a relative path up in a list of sibling trees: the reachable
file-system object it denotes, if any. -/
def resolve (cs : List FSNode) : Path → Option FSNode
  | [] => none
  | [n] => findNode n cs
  | n :: rest =>
    match findNode n cs with
    | some (.dir _ ch) => resolve ch rest
    | _ => none

mutual
/-- The number of file-system objects of one tree (the entry itself and,
for a directory, its descendants), inaccessible entries included. -/
def nodeCnt : FSNode → Nat
  | .dir _ ch => 1 + listCnt ch
  | _ => 1
/-- The number of file-system objects of a list of sibling trees. -/
def listCnt : List FSNode → Nat
  | [] => 0
  | c :: cs => nodeCnt c + listCnt cs
end

/-- A frame is registered consistently against the tree `cs` rooted at
`root`: its path extends the root by some relative path, its pending
children have pairwise distinct names (recursively), and each pending
child is exactly the object the tree holds at the corresponding path. -/
def frameOK (root : Path) (cs : List FSNode) (f : Frame) : Prop :=
  ∃ rel, f.path = root ++ rel ∧ wfList f.pending = true ∧
    ∀ c ∈ f.pending, resolve cs (rel ++ [c.name]) = some c

/-- The Traversal Stack invariant: every frame is registered consistently,
and each frame's path extends the path of the frame below it by one name
segment that is no longer pending in that lower frame. -/
def stackInv (root : Path) (cs : List FSNode) : List Frame → Prop
  | [] => True
  | [f] => frameOK root cs f
  | f :: g :: rest =>
    frameOK root cs f ∧
    (∃ m, f.path = g.path ++ [m] ∧ nameIn m g.pending = false) ∧
    stackInv root cs (g :: rest)

/-- The states reachable from a state by any sequence of `produceNext()`
calls (with any outcome) and successful `skipDirectory()` calls. -/
inductive Reaches : IterState → IterState → Prop where
  | refl (s : IterState) : Reaches s s
  | step {s t u : IterState} (r : StepResult) (h : produceNext s = (r, t))
      (ht : Reaches t u) : Reaches s u
  | skip {s t u : IterState} (h : skipDirectory s = .ok t)
      (ht : Reaches t u) : Reaches s u

/-- The classification outcomes reported by `CloudSync::fs::Type`
(src/fs/file.hpp lines 22-28; named `FType` here because `Type` is a Lean
keyword). -/
inductive FType where
  | Directory
  | File
  | Symlink
  | Other
  | NotFound
deriving DecidableEq

/-- An abstract snapshot of the host filesystem as observed through the
primitive queries `exists`, `isDirectory`, `isFile` and `isSymlink`
(src/fs/file.cpp lines 40-74), which are thin wrappers over
`std::filesystem`.  Each field records one query's answer per path;
`exFalseDir`/`exFalseFile` record that `std::filesystem::is_directory`
and `is_regular_file` report false wherever `exists` reports false (both
follow the same followed-symlink status).  The model covers the
executions in which the underlying OS calls do not throw. -/
structure RealFS where
  ex : String → Bool
  isDir : String → Bool
  isFile : String → Bool
  isSym : String → Bool
  exFalseDir : ∀ p, ex p = false → isDir p = false
  exFalseFile : ∀ p, ex p = false → isFile p = false

/-- `CloudSync::fs::getType` (src/fs/file.cpp lines 19-38), for the
executions in which no `IOException` is thrown: not-exists gives NotFound,
then directory, regular file and symlink are tried in order, and the final
fall-through (line 33) returns NotFound. -/
def getType (fs : RealFS) (path : String) : FType :=
  if !(fs.ex path) then .NotFound
  else if fs.isDir path then .Directory
  else if fs.isFile path then .File
  else if fs.isSym path then .Symlink
  else .NotFound

/-- The exceptions thrown by `CloudSync::fs` file operations. -/
inductive FsError where
  | existsException
  | ioException
  | notFoundException
deriving DecidableEq

/-- `CloudSync::fs::copy` (src/fs/file.cpp lines 108-132): a no-op when
`src = dst`; `ExistsException` when the destination exists; otherwise the
directory branch runs iff `isDirectory(src)` and then the file branch runs
iff `isFile(src)`.  The effects of the two `std::filesystem::copy` calls
are abstract parameters (external OS collaborators) which may fail; a
failure surfaces as `IOException`. -/
def copy (osCopyDir osCopyFile : RealFS → String → String → Except Unit RealFS)
    (fs : RealFS) (src dst : String) : Except FsError RealFS :=
  if src = dst then .ok fs
  else if fs.ex dst then .error .existsException
  else
    match (if fs.isDir src then osCopyDir fs src dst else .ok fs) with
    | .error _ => .error .ioException
    | .ok fs1 =>
      match (if fs1.isFile src then osCopyFile fs1 src dst else .ok fs1) with
      | .error _ => .error .ioException
      | .ok fs2 => .ok fs2

/-- A filesystem snapshot with no objects at all. -/
def emptyRealFS : RealFS :=
  ⟨fun _ => false, fun _ => false, fun _ => false, fun _ => false,
    fun _ _ => rfl, fun _ _ => rfl⟩

/-- A filesystem snapshot in which exactly one object exists, at
`/tmp/fifo`, and that object is neither a directory, nor a regular file,
nor a symlink (e.g. a FIFO or a socket). -/
def fifoFS : RealFS :=
  ⟨fun p => p == "/tmp/fifo", fun _ => false, fun _ => false, fun _ => false,
    fun _ _ => rfl, fun _ _ => rfl⟩

theorem traverse_of_done {s t : IterState} (h : produceNext s = (.done, t)) :
    traverse s = [.done] := by
  rw [traverse.eq_def]
  split
  · rfl
  · next p d s' heq => rw [h] at heq; injection heq with h1 h2; cases h1
  · next p s' heq => rw [h] at heq; injection heq with h1 h2; cases h1

theorem traverse_of_yielded {s s' : IterState} {p : Path} {d : Bool}
    (h : produceNext s = (.yielded p d, s')) :
    traverse s = .yielded p d :: traverse s' := by
  rw [traverse.eq_def]
  split
  · next t heq => rw [h] at heq; injection heq with h1 h2; cases h1
  · next q e t heq =>
    rw [h] at heq
    injection heq with h1 h2
    injection h1 with h3 h4
    subst h3; subst h4; subst h2
    rfl
  · next q t heq => rw [h] at heq; injection heq with h1 h2; cases h1

theorem traverse_of_failed {s s' : IterState} {p : Path}
    (h : produceNext s = (.failed p, s')) :
    traverse s = .failed p :: traverse s' := by
  rw [traverse.eq_def]
  split
  · next t heq => rw [h] at heq; injection heq with h1 h2; cases h1
  · next q e t heq => rw [h] at heq; injection heq with h1 h2; cases h1
  · next q t heq =>
    rw [h] at heq
    injection heq with h1 h2
    injection h1 with h3
    subst h3; subst h2
    rfl

theorem traverse_congr {s t : IterState} (h : produceNext s = produceNext t) :
    traverse s = traverse t := by
  rcases hp : produceNext t with ⟨r, s'⟩
  cases r with
  | done => rw [traverse_of_done (h.trans hp), traverse_of_done hp]
  | yielded p d => rw [traverse_of_yielded (h.trans hp), traverse_of_yielded hp]
  | failed p => rw [traverse_of_failed (h.trans hp), traverse_of_failed hp]

theorem traverse_spec :
    ∀ (n : Nat) (stk : List Frame) (cur : Option (Path × Bool)),
      stackW stk ≤ n →
      yieldsOf (traverse ⟨stk, cur⟩) = goodPaths stk ∧
      failsOf (traverse ⟨stk, cur⟩) = badPaths stk ∧
      (traverse ⟨stk, cur⟩).length = (goodPaths stk).length + (badPaths stk).length + 1 := by
  intro n
  induction n with
  | zero =>
    intro stk cur hs
    cases stk with
    | nil =>
      rw [traverse_of_done (s := ⟨[], cur⟩) (t := ⟨[], none⟩) (by simp [produceNext, pnAux])]
      simp [yieldsOf, failsOf, goodPaths, badPaths]
    | cons f rest => simp [stackW] at hs
  | succ n ih =>
    intro stk cur hs
    cases stk with
    | nil =>
      rw [traverse_of_done (s := ⟨[], cur⟩) (t := ⟨[], none⟩) (by simp [produceNext, pnAux])]
      simp [yieldsOf, failsOf, goodPaths, badPaths]
    | cons f rest =>
      obtain ⟨dp, pending⟩ := f
      cases pending with
      | nil =>
        have hpn : produceNext ⟨⟨dp, []⟩ :: rest, cur⟩ = produceNext ⟨rest, cur⟩ := by
          simp [produceNext, pnAux]
        have hrec := ih rest cur (by simp [stackW, listW] at hs ⊢; omega)
        rw [traverse_congr hpn]
        simpa [goodPaths, badPaths, listGood, listBad] using hrec
      | cons c cs =>
        cases c with
        | file nm =>
          have hpn : produceNext ⟨⟨dp, .file nm :: cs⟩ :: rest, cur⟩ =
              (.yielded (dp ++ [nm]) false,
                ⟨⟨dp, cs⟩ :: rest, some (dp ++ [nm], false)⟩) := by
            simp [produceNext, pnAux]
          have hrec := ih (⟨dp, cs⟩ :: rest) (some (dp ++ [nm], false))
            (by simp [stackW, listW, nodeW] at hs ⊢; omega)
          rw [traverse_of_yielded hpn]
          simp [yieldsOf, failsOf, goodPaths, badPaths, listGood, listBad,
            nodeGood, nodeBad] at hrec ⊢
          exact ⟨hrec.1, hrec.2.1, by omega⟩
        | symlink nm =>
          have hpn : produceNext ⟨⟨dp, .symlink nm :: cs⟩ :: rest, cur⟩ =
              (.yielded (dp ++ [nm]) false,
                ⟨⟨dp, cs⟩ :: rest, some (dp ++ [nm], false)⟩) := by
            simp [produceNext, pnAux]
          have hrec := ih (⟨dp, cs⟩ :: rest) (some (dp ++ [nm], false))
            (by simp [stackW, listW, nodeW] at hs ⊢; omega)
          rw [traverse_of_yielded hpn]
          simp [yieldsOf, failsOf, goodPaths, badPaths, listGood, listBad,
            nodeGood, nodeBad] at hrec ⊢
          exact ⟨hrec.1, hrec.2.1, by omega⟩
        | other nm =>
          have hpn : produceNext ⟨⟨dp, .other nm :: cs⟩ :: rest, cur⟩ =
              (.yielded (dp ++ [nm]) false,
                ⟨⟨dp, cs⟩ :: rest, some (dp ++ [nm], false)⟩) := by
            simp [produceNext, pnAux]
          have hrec := ih (⟨dp, cs⟩ :: rest) (some (dp ++ [nm], false))
            (by simp [stackW, listW, nodeW] at hs ⊢; omega)
          rw [traverse_of_yielded hpn]
          simp [yieldsOf, failsOf, goodPaths, badPaths, listGood, listBad,
            nodeGood, nodeBad] at hrec ⊢
          exact ⟨hrec.1, hrec.2.1, by omega⟩
        | bad nm =>
          have hpn : produceNext ⟨⟨dp, .bad nm :: cs⟩ :: rest, cur⟩ =
              (.failed (dp ++ [nm]), ⟨⟨dp, cs⟩ :: rest, cur⟩) := by
            simp [produceNext, pnAux]
          have hrec := ih (⟨dp, cs⟩ :: rest) cur
            (by simp [stackW, listW, nodeW] at hs ⊢; omega)
          rw [traverse_of_failed hpn]
          simp [yieldsOf, failsOf, goodPaths, badPaths, listGood, listBad,
            nodeGood, nodeBad] at hrec ⊢
          exact ⟨hrec.1, hrec.2.1, by omega⟩
        | dir nm ch =>
          have hpn : produceNext ⟨⟨dp, .dir nm ch :: cs⟩ :: rest, cur⟩ =
              (.yielded (dp ++ [nm]) true,
                ⟨⟨dp ++ [nm], ch⟩ :: ⟨dp, cs⟩ :: rest, some (dp ++ [nm], true)⟩) := by
            simp [produceNext, pnAux]
          have hrec := ih (⟨dp ++ [nm], ch⟩ :: ⟨dp, cs⟩ :: rest) (some (dp ++ [nm], true))
            (by simp [stackW, listW, nodeW] at hs ⊢; omega)
          rw [traverse_of_yielded hpn]
          simp [yieldsOf, failsOf, goodPaths, badPaths, listGood, listBad,
            nodeGood, nodeBad] at hrec ⊢
          exact ⟨hrec.1, hrec.2.1, by omega⟩

theorem traverse_yields (s : IterState) : yieldsOf (traverse s) = goodPaths s.stack :=
  (traverse_spec (stackW s.stack) s.stack s.current le_rfl).1

theorem traverse_fails (s : IterState) : failsOf (traverse s) = badPaths s.stack :=
  (traverse_spec (stackW s.stack) s.stack s.current le_rfl).2.1

theorem traverse_length (s : IterState) :
    (traverse s).length = (goodPaths s.stack).length + (badPaths s.stack).length + 1 :=
  (traverse_spec (stackW s.stack) s.stack s.current le_rfl).2.2

theorem isPre_iff : ∀ (d p : Path), isPre d p = true ↔ ∃ t, p = d ++ t := by
  intro d
  induction d with
  | nil => intro p; simp [isPre]
  | cons a as ih =>
    intro p
    cases p with
    | nil => simp [isPre]
    | cons b bs =>
      simp only [isPre, Bool.and_eq_true, beq_iff_eq, ih bs]
      constructor
      · rintro ⟨hab, t, ht⟩; exact ⟨t, by simp [hab.symm, ht]⟩
      · rintro ⟨t, ht⟩
        simp only [List.cons_append, List.cons.injEq] at ht
        exact ⟨ht.1.symm, t, ht.2⟩

theorem isPre_refl (p : Path) : isPre p p = true :=
  (isPre_iff p p).2 ⟨[], by simp⟩

theorem isPre_length {d p : Path} (h : isPre d p = true) : d.length ≤ p.length := by
  obtain ⟨t, ht⟩ := (isPre_iff d p).1 h
  subst ht; simp

theorem isUnder_iff (p d : Path) : isUnder p d = true ↔ ∃ t, t ≠ [] ∧ p = d ++ t := by
  simp only [isUnder, Bool.and_eq_true, Nat.blt_eq, isPre_iff]
  constructor
  · rintro ⟨⟨t, ht⟩, hlen⟩
    refine ⟨t, ?_, ht⟩
    intro he
    subst he; simp [ht] at hlen
  · rintro ⟨t, hne, ht⟩
    refine ⟨⟨t, ht⟩, ?_⟩
    subst ht
    cases t with
    | nil => exact absurd rfl hne
    | cons x xs => simp

/-- The later path of a strict extension is never an initial segment of the
shorter one. -/
theorem isPre_of_longer_false {d y : Path} (h : d.length < y.length) :
    isPre y d = false := by
  cases he : isPre y d with
  | false => rfl
  | true => exact absurd (isPre_length he) (by omega)

/-- Two paths that branch at distinct names directly below a common base
are not initial segments of one another. -/
theorem isPre_branch_false {base : Path} {n₁ n₂ : String} {t₁ t₂ : Path}
    (h : n₁ ≠ n₂) : isPre (base ++ [n₂] ++ t₂) (base ++ [n₁] ++ t₁) = false := by
  cases he : isPre (base ++ [n₂] ++ t₂) (base ++ [n₁] ++ t₁) with
  | false => rfl
  | true =>
    obtain ⟨u, hu⟩ := (isPre_iff _ _).1 he
    rw [List.append_assoc, List.append_assoc, List.append_assoc] at hu
    have := List.append_cancel_left hu
    simp only [List.cons_append, List.nil_append, List.cons.injEq] at this
    exact absurd this.1 h

mutual
theorem nodeGood_shape :
    ∀ (base : Path) (c : FSNode) (q : Path), q ∈ nodeGood base c →
      ∃ t, q = base ++ [c.name] ++ t := by
  intro base c q hq
  cases c with
  | file n => simp [nodeGood] at hq; exact ⟨[], by simp [hq, FSNode.name]⟩
  | symlink n => simp [nodeGood] at hq; exact ⟨[], by simp [hq, FSNode.name]⟩
  | other n => simp [nodeGood] at hq; exact ⟨[], by simp [hq, FSNode.name]⟩
  | bad n => simp [nodeGood] at hq
  | dir n ch =>
    simp only [nodeGood, List.mem_cons] at hq
    cases hq with
    | inl h => exact ⟨[], by simp [h, FSNode.name]⟩
    | inr h =>
      obtain ⟨n₂, t, _, ht⟩ := listGood_shape (base ++ [n]) ch q h
      exact ⟨[n₂] ++ t, by simp [FSNode.name, ht]⟩
theorem listGood_shape :
    ∀ (base : Path) (cs : List FSNode) (q : Path), q ∈ listGood base cs →
      ∃ n t, nameIn n cs = true ∧ q = base ++ [n] ++ t := by
  intro base cs q hq
  cases cs with
  | nil => simp [listGood] at hq
  | cons c cs =>
    simp only [listGood, List.mem_append] at hq
    cases hq with
    | inl h =>
      obtain ⟨t, ht⟩ := nodeGood_shape base c q h
      exact ⟨c.name, t, by simp [nameIn], ht⟩
    | inr h =>
      obtain ⟨n, t, hn, ht⟩ := listGood_shape base cs q h
      exact ⟨n, t, by simp [nameIn, hn], ht⟩
end

mutual
theorem nodeGood_pairwise :
    ∀ (base : Path) (c : FSNode), wfNode c = true →
      List.Pairwise (fun x y => isPre y x = false) (nodeGood base c) := by
  intro base c hwf
  cases c with
  | file n => simp [nodeGood]
  | symlink n => simp [nodeGood]
  | other n => simp [nodeGood]
  | bad n => simp [nodeGood]
  | dir n ch =>
    simp only [nodeGood, List.pairwise_cons]
    constructor
    · intro y hy
      obtain ⟨n₂, t, _, ht⟩ := listGood_shape (base ++ [n]) ch y hy
      apply isPre_of_longer_false
      subst ht; simp
    · exact listGood_pairwise (base ++ [n]) ch (by simpa [wfNode] using hwf)
theorem listGood_pairwise :
    ∀ (base : Path) (cs : List FSNode), wfList cs = true →
      List.Pairwise (fun x y => isPre y x = false) (listGood base cs) := by
  intro base cs hwf
  cases cs with
  | nil => simp [listGood]
  | cons c cs =>
    simp only [wfList, Bool.and_eq_true, Bool.not_eq_eq_eq_not, Bool.not_true] at hwf
    obtain ⟨⟨hni, hwn⟩, hwl⟩ := hwf
    simp only [listGood, List.pairwise_append]
    refine ⟨nodeGood_pairwise base c hwn, listGood_pairwise base cs hwl, ?_⟩
    intro x hx y hy
    obtain ⟨t₁, ht₁⟩ := nodeGood_shape base c x hx
    obtain ⟨n₂, t₂, hn₂, ht₂⟩ := listGood_shape base cs y hy
    subst ht₁; subst ht₂
    apply isPre_branch_false
    intro he
    rw [← he] at hn₂
    rw [hn₂] at hni
    cases hni
end

theorem listGood_nodup {base : Path} {cs : List FSNode} (hwf : wfList cs = true) :
    (listGood base cs).Nodup := by
  refine (listGood_pairwise base cs hwf).imp ?_
  intro a b hab he
  subst he
  rw [isPre_refl] at hab
  cases hab

theorem findNode_mem {n : String} {cs : List FSNode} {c : FSNode}
    (h : findNode n cs = some c) : c ∈ cs ∧ c.name = n := by
  induction cs with
  | nil => simp [findNode] at h
  | cons d cs ih =>
    simp only [findNode] at h
    by_cases hd : d.name = n
    · simp [hd] at h; subst h; exact ⟨List.mem_cons_self d cs, hd⟩
    · simp [hd] at h
      obtain ⟨hm, he⟩ := ih h
      exact ⟨List.mem_cons_of_mem d hm, he⟩

theorem nameIn_of_mem {c : FSNode} {cs : List FSNode} (h : c ∈ cs) :
    nameIn c.name cs = true := by
  induction cs with
  | nil => simp at h
  | cons d cs ih =>
    rcases List.mem_cons.1 h with he | hm
    · subst he; simp [nameIn]
    · simp [nameIn, ih hm]

theorem nameIn_append (n : String) (l₁ l₂ : List FSNode) :
    nameIn n (l₁ ++ l₂) = (nameIn n l₁ || nameIn n l₂) := by
  induction l₁ with
  | nil => simp [nameIn]
  | cons c cs ih => simp [nameIn, ih, Bool.or_assoc]

theorem findNode_cons_self (c : FSNode) (cs : List FSNode) :
    findNode c.name (c :: cs) = some c := by
  simp [findNode]

theorem findNode_cons_ne {c : FSNode} {n : String} (cs : List FSNode)
    (h : c.name ≠ n) : findNode n (c :: cs) = findNode n cs := by
  simp [findNode, h]

theorem resolve_cons_ne {c : FSNode} {n : String} (cs : List FSNode) (rest : Path)
    (h : c.name ≠ n) : resolve (c :: cs) (n :: rest) = resolve cs (n :: rest) := by
  cases rest with
  | nil => simp [resolve, findNode_cons_ne cs h]
  | cons m ms => simp [resolve, findNode_cons_ne cs h]

theorem resolve_head {cs : List FSNode} {n : String} {rest : Path}
    (h : (resolve cs (n :: rest)).isSome = true) :
    ∃ c, findNode n cs = some c := by
  cases rest with
  | nil =>
    simp only [resolve] at h
    cases hf : findNode n cs with
    | none => rw [hf] at h; simp at h
    | some c => exact ⟨c, rfl⟩
  | cons m ms =>
    simp only [resolve] at h
    cases hf : findNode n cs with
    | none => rw [hf] at h; simp at h
    | some c => exact ⟨c, rfl⟩

theorem allGood_of_mem {c : FSNode} {cs : List FSNode} (hm : c ∈ cs)
    (hg : allGoodList cs = true) : allGoodNode c = true := by
  induction cs with
  | nil => simp at hm
  | cons d cs ih =>
    simp only [allGoodList, Bool.and_eq_true] at hg
    rcases List.mem_cons.1 hm with he | hmm
    · subst he; exact hg.1
    · exact ih hmm hg.2

theorem mem_listGood_of_mem_nodeGood {c : FSNode} {cs : List FSNode}
    {base q : Path} (hm : c ∈ cs) (hq : q ∈ nodeGood base c) :
    q ∈ listGood base cs := by
  induction cs with
  | nil => simp at hm
  | cons d cs ih =>
    simp only [listGood, List.mem_append]
    rcases List.mem_cons.1 hm with he | hmm
    · subst he; exact Or.inl hq
    · exact Or.inr (ih hmm)

theorem self_mem_nodeGood {c : FSNode} (base : Path)
    (hg : allGoodNode c = true) : base ++ [c.name] ∈ nodeGood base c := by
  cases c with
  | file n => simp [nodeGood, FSNode.name]
  | symlink n => simp [nodeGood, FSNode.name]
  | other n => simp [nodeGood, FSNode.name]
  | bad n => simp [allGoodNode] at hg
  | dir n ch => simp [nodeGood, FSNode.name]

theorem listGood_resolve :
    ∀ (k : Nat) (cs : List FSNode) (base q : Path), listW cs ≤ k →
      wfList cs = true → q ∈ listGood base cs →
      ∃ rel, rel ≠ [] ∧ q = base ++ rel ∧ (resolve cs rel).isSome = true := by
  intro k
  induction k with
  | zero =>
    intro cs base q hk _ hq
    cases cs with
    | nil => simp [listGood] at hq
    | cons c cs' => cases c <;> (simp [listW, nodeW] at hk)
  | succ k ih =>
    intro cs base q hk hwf hq
    cases cs with
    | nil => simp [listGood] at hq
    | cons c cs' =>
      simp only [wfList, Bool.and_eq_true, Bool.not_eq_eq_eq_not, Bool.not_true] at hwf
      obtain ⟨⟨hni, hwn⟩, hwl⟩ := hwf
      simp only [listGood, List.mem_append] at hq
      rcases hq with hq | hq
      · cases c with
        | file n =>
          simp [nodeGood] at hq
          refine ⟨[n], by simp, by simp [hq], ?_⟩
          have : findNode n (FSNode.file n :: cs') = some (.file n) := by
            simp [findNode, FSNode.name]
          simp [resolve, this]
        | symlink n =>
          simp [nodeGood] at hq
          refine ⟨[n], by simp, by simp [hq], ?_⟩
          have : findNode n (FSNode.symlink n :: cs') = some (.symlink n) := by
            simp [findNode, FSNode.name]
          simp [resolve, this]
        | other n =>
          simp [nodeGood] at hq
          refine ⟨[n], by simp, by simp [hq], ?_⟩
          have : findNode n (FSNode.other n :: cs') = some (.other n) := by
            simp [findNode, FSNode.name]
          simp [resolve, this]
        | bad n => simp [nodeGood] at hq
        | dir n ch =>
          have hfind : findNode n (FSNode.dir n ch :: cs') = some (.dir n ch) := by
            simp [findNode, FSNode.name]
          simp only [nodeGood, List.mem_cons] at hq
          rcases hq with hq | hq
          · exact ⟨[n], by simp, by simp [hq], by simp [resolve, hfind]⟩
          · have hch : listW ch ≤ k := by simp [listW, nodeW] at hk; omega
            obtain ⟨rel₂, hne₂, hq₂, hres₂⟩ :=
              ih ch (base ++ [n]) q hch (by simpa [wfNode] using hwn) hq
            refine ⟨n :: rel₂, by simp, by simp [hq₂], ?_⟩
            cases rel₂ with
            | nil => exact absurd rfl hne₂
            | cons m ms => simpa [resolve, hfind] using hres₂
      · have hcs : listW cs' ≤ k := by
          cases c <;> (simp [listW, nodeW] at hk ⊢; omega)
        obtain ⟨rel, hne, hq₂, hres⟩ := ih cs' base q hcs hwl hq
        refine ⟨rel, hne, hq₂, ?_⟩
        cases rel with
        | nil => exact absurd rfl hne
        | cons n₂ rest =>
          obtain ⟨c₂, hc₂⟩ := resolve_head hres
          obtain ⟨hm₂, hn₂⟩ := findNode_mem hc₂
          have : c.name ≠ n₂ := by
            intro he
            have hin := nameIn_of_mem hm₂
            rw [hn₂, ← he, hni] at hin
            cases hin
          rw [resolve_cons_ne cs' rest this]
          exact hres

theorem resolve_listGood :
    ∀ (rel : Path) (cs : List FSNode) (base : Path),
      allGoodList cs = true → rel ≠ [] → (resolve cs rel).isSome = true →
      base ++ rel ∈ listGood base cs := by
  intro rel
  induction rel with
  | nil => intro cs base _ hne _; exact absurd rfl hne
  | cons n rest ih =>
    intro cs base hg _ hres
    cases rest with
    | nil =>
      simp only [resolve] at hres
      cases hf : findNode n cs with
      | none => rw [hf] at hres; simp at hres
      | some c =>
        obtain ⟨hm, hn⟩ := findNode_mem hf
        have := self_mem_nodeGood base (allGood_of_mem hm hg)
        rw [hn] at this
        exact mem_listGood_of_mem_nodeGood hm this
    | cons m ms =>
      simp only [resolve] at hres
      cases hf : findNode n cs with
      | none => rw [hf] at hres; simp at hres
      | some c =>
        cases c with
        | dir n' ch =>
          rw [hf] at hres
          obtain ⟨hm, hn⟩ := findNode_mem hf
          have hgch : allGoodList ch = true := by
            have := allGood_of_mem hm hg
            simpa [allGoodNode] using this
          have hrec := ih ch (base ++ [n]) hgch (by simp) hres
          have hmem : base ++ [n] ++ (m :: ms) ∈ nodeGood base (FSNode.dir n' ch) := by
            have hn' : n' = n := by simpa [FSNode.name] using hn
            subst hn'
            simp only [nodeGood, List.mem_cons]
            exact Or.inr hrec
          have := mem_listGood_of_mem_nodeGood hm hmem
          simpa using this
        | file n' => rw [hf] at hres; simp at hres
        | symlink n' => rw [hf] at hres; simp at hres
        | other n' => rw [hf] at hres; simp at hres
        | bad n' => rw [hf] at hres; simp at hres

theorem listGood_append (base : Path) (l₁ l₂ : List FSNode) :
    listGood base (l₁ ++ l₂) = listGood base l₁ ++ listGood base l₂ := by
  induction l₁ with
  | nil => simp [listGood]
  | cons c cs ih => simp [listGood, ih]

theorem listBad_append (base : Path) (l₁ l₂ : List FSNode) :
    listBad base (l₁ ++ l₂) = listBad base l₁ ++ listBad base l₂ := by
  induction l₁ with
  | nil => simp [listBad]
  | cons c cs ih => simp [listBad, ih]

mutual
theorem nodeBad_nil_of_allGood :
    ∀ (base : Path) (c : FSNode), allGoodNode c = true → nodeBad base c = [] := by
  intro base c hg
  cases c with
  | file n => simp [nodeBad]
  | symlink n => simp [nodeBad]
  | other n => simp [nodeBad]
  | bad n => simp [allGoodNode] at hg
  | dir n ch =>
    simp only [nodeBad]
    exact listBad_nil_of_allGood (base ++ [n]) ch (by simpa [allGoodNode] using hg)
theorem listBad_nil_of_allGood :
    ∀ (base : Path) (cs : List FSNode), allGoodList cs = true → listBad base cs = [] := by
  intro base cs hg
  cases cs with
  | nil => simp [listBad]
  | cons c cs =>
    simp only [allGoodList, Bool.and_eq_true] at hg
    simp only [listBad, nodeBad_nil_of_allGood base c hg.1,
      listBad_nil_of_allGood base cs hg.2, List.nil_append]
end

theorem wfList_cons_iff (c : FSNode) (cs : List FSNode) :
    wfList (c :: cs) = true ↔
      nameIn c.name cs = false ∧ wfNode c = true ∧ wfList cs = true := by
  simp [wfList, Bool.and_eq_true, Bool.not_eq_eq_eq_not, Bool.not_true, and_assoc]

theorem wfList_append_middle :
    ∀ (pre : List FSNode) (c : FSNode) (post : List FSNode),
      wfList (pre ++ c :: post) = true → wfList (pre ++ post) = true := by
  intro pre c post h
  induction pre with
  | nil => exact ((wfList_cons_iff c post).1 h).2.2
  | cons d pre ih =>
    rw [List.cons_append] at h ⊢
    rw [wfList_cons_iff] at h ⊢
    obtain ⟨hni, hwn, hwl⟩ := h
    refine ⟨?_, hwn, ih hwl⟩
    rw [nameIn_append] at hni ⊢
    simp only [Bool.or_eq_false_iff] at hni ⊢
    refine ⟨hni.1, ?_⟩
    have := hni.2
    simp only [nameIn, Bool.or_eq_false_iff] at this
    exact this.2

theorem wfList_middle_name :
    ∀ (pre : List FSNode) (c : FSNode) (post : List FSNode),
      wfList (pre ++ c :: post) = true →
      nameIn c.name pre = false ∧ nameIn c.name post = false := by
  intro pre c post h
  induction pre with
  | nil =>
    refine ⟨rfl, ?_⟩
    exact ((wfList_cons_iff c post).1 h).1
  | cons d pre ih =>
    rw [List.cons_append, wfList_cons_iff] at h
    obtain ⟨hni, _, hwl⟩ := h
    obtain ⟨h1, h2⟩ := ih hwl
    refine ⟨?_, h2⟩
    simp only [nameIn, Bool.or_eq_false_iff]
    refine ⟨?_, h1⟩
    rw [nameIn_append] at hni
    simp only [Bool.or_eq_false_iff, nameIn, Bool.or_eq_false_iff] at hni
    have := hni.2.1
    simp only [beq_eq_false_iff_ne, ne_eq] at this ⊢
    exact fun he => this he.symm

theorem goodPaths_init (root : Path) (cs : List FSNode) :
    goodPaths (initState root cs).stack = listGood root cs := by
  simp [initState, goodPaths]

theorem badPaths_init (root : Path) (cs : List FSNode) :
    badPaths (initState root cs).stack = listBad root cs := by
  simp [initState, badPaths]

theorem wfNode_of_mem {c : FSNode} {cs : List FSNode} (hm : c ∈ cs)
    (hwf : wfList cs = true) : wfNode c = true := by
  induction cs with
  | nil => simp at hm
  | cons d cs ih =>
    rw [wfList_cons_iff] at hwf
    rcases List.mem_cons.1 hm with he | hmm
    · subst he; exact hwf.2.1
    · exact ih hmm hwf.2.2

theorem findNode_self_of_wf {cs : List FSNode} (hwf : wfList cs = true)
    {c : FSNode} (hm : c ∈ cs) : findNode c.name cs = some c := by
  induction cs with
  | nil => simp at hm
  | cons d cs ih =>
    rw [wfList_cons_iff] at hwf
    rcases List.mem_cons.1 hm with he | hmm
    · subst he; exact findNode_cons_self c cs
    · have hne : d.name ≠ c.name := by
        intro he
        have := nameIn_of_mem hmm
        rw [← he, hwf.1] at this
        cases this
      rw [findNode_cons_ne cs hne]
      exact ih hwf.2.2 hmm

theorem resolve_append_one :
    ∀ (rel : Path) (n : String) (cs : List FSNode) (m : String),
      resolve cs ((n :: rel) ++ [m]) =
        match resolve cs (n :: rel) with
        | some (.dir _ ch) => findNode m ch
        | _ => none := by
  intro rel
  induction rel with
  | nil =>
    intro n cs m
    simp only [List.cons_append, List.nil_append, resolve]
  | cons r rs ih =>
    intro n cs m
    simp only [List.cons_append, resolve]
    cases hf : findNode n cs with
    | none => rfl
    | some c =>
      cases c with
      | dir nm ch => exact ih r ch m
      | file nm => rfl
      | symlink nm => rfl
      | other nm => rfl
      | bad nm => rfl

mutual
theorem nodeCnt_split :
    ∀ (base : Path) (c : FSNode),
      (nodeGood base c).length + (nodeBad base c).length = nodeCnt c := by
  intro base c
  cases c with
  | file n => simp [nodeGood, nodeBad, nodeCnt]
  | symlink n => simp [nodeGood, nodeBad, nodeCnt]
  | other n => simp [nodeGood, nodeBad, nodeCnt]
  | bad n => simp [nodeGood, nodeBad, nodeCnt]
  | dir n ch =>
    have := listCnt_split (base ++ [n]) ch
    simp only [nodeGood, nodeBad, nodeCnt, List.length_cons]
    omega
theorem listCnt_split :
    ∀ (base : Path) (cs : List FSNode),
      (listGood base cs).length + (listBad base cs).length = listCnt cs := by
  intro base cs
  cases cs with
  | nil => simp [listGood, listBad, listCnt]
  | cons c cs =>
    have h1 := nodeCnt_split base c
    have h2 := listCnt_split base cs
    simp only [listGood, listBad, listCnt, List.length_append]
    omega
end

theorem skip_ok_shape {s t : IterState} (h : skipDirectory s = .ok t) :
    ∃ f rest, s.stack = f :: rest ∧ t = ⟨rest, s.current⟩ ∧
      s.current = some (f.path, true) := by
  obtain ⟨stk, cur⟩ := s
  cases cur with
  | none => simp [skipDirectory] at h
  | some pd =>
    obtain ⟨p, d⟩ := pd
    cases d with
    | false => simp [skipDirectory] at h
    | true =>
      cases stk with
      | nil => simp [skipDirectory] at h
      | cons f rest =>
        by_cases hp : f.path = p
        · simp [skipDirectory, hp] at h
          exact ⟨f, rest, rfl, h.symm, by rw [hp]⟩
        · simp [skipDirectory, hp] at h

theorem stackInv_tail {root : Path} {cs : List FSNode} {f : Frame}
    {rest : List Frame} (h : stackInv root cs (f :: rest)) :
    stackInv root cs rest := by
  cases rest with
  | nil => trivial
  | cons g rest' => exact h.2.2

theorem frameOK_tail {root : Path} {cs : List FSNode} {dp : Path}
    {c : FSNode} {cs' : List FSNode}
    (h : frameOK root cs ⟨dp, c :: cs'⟩) : frameOK root cs ⟨dp, cs'⟩ := by
  obtain ⟨rel, hpath, hwf, hres⟩ := h
  exact ⟨rel, hpath, ((wfList_cons_iff c cs').1 hwf).2.2,
    fun c' hc' => hres c' (List.mem_cons_of_mem c hc')⟩

theorem stackInv_shrink {root : Path} {cs : List FSNode} {dp : Path}
    {c : FSNode} {cs' : List FSNode} {rest : List Frame}
    (h : stackInv root cs (⟨dp, c :: cs'⟩ :: rest)) :
    stackInv root cs (⟨dp, cs'⟩ :: rest) := by
  cases rest with
  | nil => exact frameOK_tail h
  | cons g rest' =>
    exact ⟨frameOK_tail h.1, h.2.1, h.2.2⟩

theorem frameOK_head {root : Path} {cs : List FSNode} {dp : Path}
    {c : FSNode} {cs' : List FSNode}
    (h : frameOK root cs ⟨dp, c :: cs'⟩) :
    ∃ rel, dp = root ++ rel ∧ resolve cs (rel ++ [c.name]) = some c ∧
      nameIn c.name cs' = false ∧ wfNode c = true ∧ wfList cs' = true := by
  obtain ⟨rel, hpath, hwf, hres⟩ := h
  rw [wfList_cons_iff] at hwf
  exact ⟨rel, hpath, hres c (List.mem_cons_self c cs'), hwf.1, hwf.2.1, hwf.2.2⟩

theorem resolve_extend {cs : List FSNode} {rel : Path} {n : String}
    {ch : List FSNode} {nm : String}
    (h : resolve cs (rel ++ [n]) = some (.dir nm ch)) (m : String) :
    resolve cs ((rel ++ [n]) ++ [m]) = findNode m ch := by
  cases hrel : rel ++ [n] with
  | nil => exact absurd hrel (by simp)
  | cons n₀ rest₀ =>
    rw [hrel] at h
    rw [resolve_append_one rest₀ n₀ cs m, h]

theorem pnAux_stackInv {root : Path} {cs : List FSNode} :
    ∀ (st : List Frame) (cur : Option (Path × Bool)) (r : StepResult)
      (s' : IterState), stackInv root cs st → pnAux cur st = (r, s') →
      stackInv root cs s'.stack := by
  intro st
  induction st with
  | nil =>
    intro cur r s' _ h
    simp only [pnAux] at h
    injection h with h1 h2
    subst h2
    trivial
  | cons f rest ih =>
    obtain ⟨dp, pending⟩ := f
    intro cur r s' hinv h
    cases pending with
    | nil =>
      simp only [pnAux] at h
      exact ih cur r s' (stackInv_tail hinv) h
    | cons c cs' =>
      cases c with
      | file nm =>
        simp only [pnAux] at h
        injection h with h1 h2
        subst h2
        exact stackInv_shrink hinv
      | symlink nm =>
        simp only [pnAux] at h
        injection h with h1 h2
        subst h2
        exact stackInv_shrink hinv
      | other nm =>
        simp only [pnAux] at h
        injection h with h1 h2
        subst h2
        exact stackInv_shrink hinv
      | bad nm =>
        simp only [pnAux] at h
        injection h with h1 h2
        subst h2
        exact stackInv_shrink hinv
      | dir nm ch =>
        simp only [pnAux] at h
        injection h with h1 h2
        subst h2
        have hfo : frameOK root cs ⟨dp, FSNode.dir nm ch :: cs'⟩ := by
          cases rest with
          | nil => exact hinv
          | cons g rest' => exact hinv.1
        obtain ⟨rel, hpath, hres, hni, hwn, _⟩ := frameOK_head hfo
        simp only [FSNode.name] at hres hni
        have hwch : wfList ch = true := by simpa [wfNode] using hwn
        refine ⟨⟨rel ++ [nm], by rw [hpath]; simp, hwch, ?_⟩, ⟨nm, rfl, hni⟩,
          stackInv_shrink hinv⟩
        intro c' hc'
        rw [resolve_extend hres c'.name]
        exact findNode_self_of_wf hwch hc'

theorem produceNext_stackInv {root : Path} {cs : List FSNode}
    {s s' : IterState} {r : StepResult} (hinv : stackInv root cs s.stack)
    (h : produceNext s = (r, s')) : stackInv root cs s'.stack :=
  pnAux_stackInv s.stack s.current r s' hinv h

theorem skip_stackInv {root : Path} {cs : List FSNode} {s t : IterState}
    (hinv : stackInv root cs s.stack) (h : skipDirectory s = .ok t) :
    stackInv root cs t.stack := by
  obtain ⟨f, rest, hs, ht, _⟩ := skip_ok_shape h
  rw [ht]
  rw [hs] at hinv
  exact stackInv_tail hinv

theorem reaches_stackInv {root : Path} {cs : List FSNode} {s t : IterState}
    (h : Reaches s t) (hinv : stackInv root cs s.stack) :
    stackInv root cs t.stack := by
  induction h with
  | refl s => exact hinv
  | step r hpn _ ih => exact ih (produceNext_stackInv hinv hpn)
  | skip hsk _ ih => exact ih (skip_stackInv hinv hsk)

theorem stackInv_init {root : Path} {cs : List FSNode}
    (hwf : wfList cs = true) : stackInv root cs (initState root cs).stack := by
  show frameOK root cs ⟨root, cs⟩
  refine ⟨[], by simp, hwf, ?_⟩
  intro c hc
  simpa [resolve] using findNode_self_of_wf hwf hc

theorem pnAux_yield_char {root : Path} {cs : List FSNode} :
    ∀ (st : List Frame) (cur : Option (Path × Bool)) (p : Path) (k : Bool)
      (s' : IterState), stackInv root cs st →
      pnAux cur st = (.yielded p k, s') →
      ∃ rel c, p = root ++ rel ++ [FSNode.name c] ∧
        resolve cs (rel ++ [FSNode.name c]) = some c ∧
        k = FSNode.isDirNode c ∧ s'.current = some (p, k) := by
  intro st
  induction st with
  | nil =>
    intro cur p k s' _ h
    simp only [pnAux] at h
    injection h with h1 h2
    cases h1
  | cons f rest ih =>
    obtain ⟨dp, pending⟩ := f
    intro cur p k s' hinv h
    cases pending with
    | nil =>
      simp only [pnAux] at h
      exact ih cur p k s' (stackInv_tail hinv) h
    | cons c cs' =>
      have hfo : frameOK root cs ⟨dp, c :: cs'⟩ := by
        cases rest with
        | nil => exact hinv
        | cons g rest' => exact hinv.1
      obtain ⟨rel, hpath, hres, _, _, _⟩ := frameOK_head hfo
      cases c with
      | file nm =>
        simp only [pnAux] at h
        injection h with h1 h2
        injection h1 with hp hk
        subst hp; subst hk; subst h2
        exact ⟨rel, .file nm, by rw [hpath]; simp [FSNode.name], by simpa using hres,
          rfl, rfl⟩
      | symlink nm =>
        simp only [pnAux] at h
        injection h with h1 h2
        injection h1 with hp hk
        subst hp; subst hk; subst h2
        exact ⟨rel, .symlink nm, by rw [hpath]; simp [FSNode.name], by simpa using hres,
          rfl, rfl⟩
      | other nm =>
        simp only [pnAux] at h
        injection h with h1 h2
        injection h1 with hp hk
        subst hp; subst hk; subst h2
        exact ⟨rel, .other nm, by rw [hpath]; simp [FSNode.name], by simpa using hres,
          rfl, rfl⟩
      | bad nm =>
        simp only [pnAux] at h
        injection h with h1 h2
        cases h1
      | dir nm ch =>
        simp only [pnAux] at h
        injection h with h1 h2
        injection h1 with hp hk
        subst hp; subst hk; subst h2
        exact ⟨rel, .dir nm ch, by rw [hpath]; simp [FSNode.name], by simpa using hres,
          rfl, rfl⟩

theorem pnAux_goodPaths_sub :
    ∀ (st : List Frame) (cur : Option (Path × Bool)) (r : StepResult)
      (s' : IterState), pnAux cur st = (r, s') →
      ∀ q ∈ goodPaths s'.stack, q ∈ goodPaths st := by
  intro st
  induction st with
  | nil =>
    intro cur r s' h q hq
    simp only [pnAux] at h
    injection h with h1 h2
    subst h2
    simp [goodPaths] at hq
  | cons f rest ih =>
    obtain ⟨dp, pending⟩ := f
    intro cur r s' h q hq
    cases pending with
    | nil =>
      simp only [pnAux] at h
      have := ih cur r s' h q hq
      simp only [goodPaths, listGood, List.nil_append]
      exact this
    | cons c cs' =>
      cases c <;>
        (simp only [pnAux] at h; injection h with h1 h2; subst h2;
         simp only [goodPaths, listGood, nodeGood, List.mem_append,
           List.mem_cons, List.append_assoc, List.nil_append] at hq ⊢; tauto)

theorem skip_goodPaths_sub {s t : IterState} (h : skipDirectory s = .ok t) :
    ∀ q ∈ goodPaths t.stack, q ∈ goodPaths s.stack := by
  obtain ⟨f, rest, hs, ht, _⟩ := skip_ok_shape h
  intro q hq
  rw [ht] at hq
  rw [hs]
  simp only [goodPaths, List.mem_append]
  exact Or.inr hq

theorem reaches_goodPaths_sub {s t : IterState} (h : Reaches s t) :
    ∀ q ∈ goodPaths t.stack, q ∈ goodPaths s.stack := by
  induction h with
  | refl s => exact fun q hq => hq
  | step r hpn _ ih =>
    exact fun q hq => pnAux_goodPaths_sub _ _ _ _ hpn q (ih q hq)
  | skip hsk _ ih => exact fun q hq => skip_goodPaths_sub hsk q (ih q hq)

theorem pnAux_yield_mem :
    ∀ (st : List Frame) (cur : Option (Path × Bool)) (p : Path) (k : Bool)
      (s' : IterState), pnAux cur st = (.yielded p k, s') →
      p ∈ goodPaths st := by
  intro st
  induction st with
  | nil =>
    intro cur p k s' h
    simp only [pnAux] at h
    injection h with h1 h2
    cases h1
  | cons f rest ih =>
    obtain ⟨dp, pending⟩ := f
    intro cur p k s' h
    cases pending with
    | nil =>
      simp only [pnAux] at h
      have := ih cur p k s' h
      simpa [goodPaths, listGood] using this
    | cons c cs' =>
      cases c with
      | bad nm =>
        simp only [pnAux] at h
        injection h with h1 h2
        cases h1
      | file nm =>
        simp only [pnAux] at h
        injection h with h1 h2
        injection h1 with hp hk
        subst hp
        simp [goodPaths, listGood, nodeGood]
      | symlink nm =>
        simp only [pnAux] at h
        injection h with h1 h2
        injection h1 with hp hk
        subst hp
        simp [goodPaths, listGood, nodeGood]
      | other nm =>
        simp only [pnAux] at h
        injection h with h1 h2
        injection h1 with hp hk
        subst hp
        simp [goodPaths, listGood, nodeGood]
      | dir nm ch =>
        simp only [pnAux] at h
        injection h with h1 h2
        injection h1 with hp hk
        subst hp
        simp [goodPaths, listGood, nodeGood]

theorem stackInv_no_under {root : Path} {cs : List FSNode} :
    ∀ (rest : List Frame) (g : Frame) (m : String) (ext : Path),
      stackInv root cs (g :: rest) → nameIn m g.pending = false →
      ∀ q ∈ goodPaths (g :: rest), isPre (g.path ++ [m] ++ ext) q = false := by
  intro rest
  induction rest with
  | nil =>
    intro g m ext _ hni q hq
    simp only [goodPaths, List.append_nil] at hq
    obtain ⟨n₂, t, hn₂, ht⟩ := listGood_shape g.path g.pending q hq
    subst ht
    refine isPre_branch_false ?_
    intro he
    rw [he, hni] at hn₂
    cases hn₂
  | cons g₂ rest₂ ih =>
    intro g m ext hinv hni q hq
    simp only [goodPaths, List.mem_append] at hq
    rcases hq with hq | hq
    · obtain ⟨n₂, t, hn₂, ht⟩ := listGood_shape g.path g.pending q hq
      subst ht
      refine isPre_branch_false ?_
      intro he
      rw [he, hni] at hn₂
      cases hn₂
    · obtain ⟨hfo, ⟨m₂, hpath, hni₂⟩, hinv₂⟩ := hinv
      have := ih g₂ m₂ ([m] ++ ext) hinv₂ hni₂ q (by
        simpa [goodPaths, List.mem_append] using hq)
      rw [hpath]
      simpa [List.append_assoc] using this

theorem pnAux_dir_yield {root : Path} {cs : List FSNode} :
    ∀ (st : List Frame) (cur : Option (Path × Bool)) (D : Path)
      (s₂ : IterState), stackInv root cs st →
      pnAux cur st = (.yielded D true, s₂) →
      ∃ dp n ch cs' rest, D = dp ++ [n] ∧
        s₂.stack = ⟨dp ++ [n], ch⟩ :: ⟨dp, cs'⟩ :: rest ∧
        stackInv root cs (⟨dp, cs'⟩ :: rest) ∧ nameIn n cs' = false := by
  intro st
  induction st with
  | nil =>
    intro cur D s₂ _ h
    simp only [pnAux] at h
    injection h with h1 h2
    cases h1
  | cons f rest ih =>
    obtain ⟨dp, pending⟩ := f
    intro cur D s₂ hinv h
    cases pending with
    | nil =>
      simp only [pnAux] at h
      exact ih cur D s₂ (stackInv_tail hinv) h
    | cons c cs' =>
      cases c with
      | file nm =>
        simp only [pnAux] at h
        injection h with h1 h2
        injection h1 with hp hk
        cases hk
      | symlink nm =>
        simp only [pnAux] at h
        injection h with h1 h2
        injection h1 with hp hk
        cases hk
      | other nm =>
        simp only [pnAux] at h
        injection h with h1 h2
        injection h1 with hp hk
        cases hk
      | bad nm =>
        simp only [pnAux] at h
        injection h with h1 h2
        cases h1
      | dir nm ch =>
        simp only [pnAux] at h
        injection h with h1 h2
        injection h1 with hp hk
        subst hp; subst h2
        have hfo : frameOK root cs ⟨dp, FSNode.dir nm ch :: cs'⟩ := by
          cases rest with
          | nil => exact hinv
          | cons g rest' => exact hinv.1
        obtain ⟨rel, _, _, hni, _, _⟩ := frameOK_head hfo
        simp only [FSNode.name] at hni
        exact ⟨dp, nm, ch, cs', rest, rfl, rfl, stackInv_shrink hinv, hni⟩

/-- C1: for every directory entry whose classification or child enumeration
fails during `produceNext()` (`nextEntry`), that candidate is consumed: the
error is raised to the caller exactly once (the failure list of the whole
traversal is exactly the one failing path), the internal cursor has already
advanced past the entry so the next call resumes at the next sibling and
never re-attempts the same failing entry (last conjunct), and every other
sibling and descendant is still yielded exactly once (the yields equal
those of the traversal of the tree without the failing entry, without
duplicates, and never include the failing path). -/
theorem nextEntry_failure_isolation (root : Path) (pre post : List FSNode)
    (bn : String)
    (hwf : wfList (pre ++ FSNode.bad bn :: post) = true)
    (hpre : allGoodList pre = true) (hpost : allGoodList post = true) :
    failsOf (traverse (initState root (pre ++ FSNode.bad bn :: post))) =
      [root ++ [bn]] ∧
    yieldsOf (traverse (initState root (pre ++ FSNode.bad bn :: post))) =
      yieldsOf (traverse (initState root (pre ++ post))) ∧
    (yieldsOf (traverse (initState root (pre ++ FSNode.bad bn :: post)))).Nodup ∧
    root ++ [bn] ∉
      yieldsOf (traverse (initState root (pre ++ FSNode.bad bn :: post))) ∧
    ∀ (dp : Path) (cs' : List FSNode) (rest : List Frame)
      (cur : Option (Path × Bool)),
      produceNext ⟨⟨dp, FSNode.bad bn :: cs'⟩ :: rest, cur⟩ =
        (.failed (dp ++ [bn]), ⟨⟨dp, cs'⟩ :: rest, cur⟩) := by
  have hyA : yieldsOf (traverse (initState root (pre ++ FSNode.bad bn :: post)))
      = listGood root (pre ++ post) := by
    rw [traverse_yields, goodPaths_init, listGood_append, listGood_append]
    simp [listGood, nodeGood]
  have hyB : yieldsOf (traverse (initState root (pre ++ post)))
      = listGood root (pre ++ post) := by
    rw [traverse_yields, goodPaths_init]
  have hwf2 : wfList (pre ++ post) = true := wfList_append_middle pre _ post hwf
  refine ⟨?_, by rw [hyA, hyB], by rw [hyA]; exact listGood_nodup hwf2, ?_, ?_⟩
  · rw [traverse_fails, badPaths_init, listBad_append]
    simp [listBad, nodeBad, listBad_nil_of_allGood _ _ hpre,
      listBad_nil_of_allGood _ _ hpost]
  · rw [hyA]
    intro hmem
    obtain ⟨n₂, t, hn₂, ht⟩ := listGood_shape root (pre ++ post) _ hmem
    rw [List.append_assoc] at ht
    have hbt := List.append_cancel_left ht
    simp only [List.singleton_append, List.cons.injEq] at hbt
    obtain ⟨hb, htt⟩ := hbt
    obtain ⟨h1, h2⟩ := wfList_middle_name pre (FSNode.bad bn) post hwf
    simp only [FSNode.name] at h1 h2
    rw [← hb, nameIn_append, h1, h2] at hn₂
    cases hn₂
  · intro dp cs' rest cur
    rfl

/-- C2: for every finite tree containing only accessible objects, the
multiset of paths returned by repeated `produceNext()` (`nextEntry`) calls,
from construction until the terminal signal, equals exactly the set of all
file-system objects reachable under the root: each reachable path is
yielded, nothing else is yielded, and no path is yielded twice. -/
theorem nextEntry_exhaustive_coverage (root : Path) (cs : List FSNode)
    (hwf : wfList cs = true) (hgood : allGoodList cs = true) :
    (yieldsOf (traverse (initState root cs))).Nodup ∧
    ∀ p : Path, p ∈ yieldsOf (traverse (initState root cs)) ↔
      ∃ rel, rel ≠ [] ∧ p = root ++ rel ∧ (resolve cs rel).isSome = true := by
  have hy : yieldsOf (traverse (initState root cs)) = listGood root cs := by
    rw [traverse_yields, goodPaths_init]
  constructor
  · rw [hy]; exact listGood_nodup hwf
  · intro p
    rw [hy]
    constructor
    · exact fun hp => listGood_resolve (listW cs) cs root p le_rfl hwf hp
    · rintro ⟨rel, hne, hp, hres⟩
      subst hp
      exact resolve_listGood rel cs root hgood hne hres

/-- C3: for every directory D yielded by `produceNext()`, D's own path is
returned strictly before any path located under D (pre-order): no yielded
path lies under a path yielded later.  Sibling order follows the order
exposed by the underlying directory enumeration: the traversal yields the
pre-order listing of the pending children in enumeration order. -/
theorem nextEntry_preorder (root : Path) (cs : List FSNode)
    (hwf : wfList cs = true) :
    List.Pairwise (fun x y => isUnder x y = false)
      (yieldsOf (traverse (initState root cs))) ∧
    yieldsOf (traverse (initState root cs)) = listGood root cs ∧
    ∀ (base : Path) (c : FSNode) (cs' : List FSNode),
      listGood base (c :: cs') = nodeGood base c ++ listGood base cs' := by
  have hy : yieldsOf (traverse (initState root cs)) = listGood root cs := by
    rw [traverse_yields, goodPaths_init]
  refine ⟨?_, hy, fun base c cs' => rfl⟩
  rw [hy]
  refine (listGood_pairwise root cs hwf).imp ?_
  intro a b hab
  simp [isUnder, hab]

/-- C5 counterexample: at an empty root directory, the number of reachable
objects and the number of per-entry failures are both zero, yet one call to
`produceNext()` is needed before the terminal signal is returned, so the
bound "at most objects + failures calls" is violated. -/
theorem nextEntry_call_bound_counterexample :
    traverse (initState ["R"] []) = [StepResult.done] ∧
    listCnt ([] : List FSNode) + (listBad ["R"] ([] : List FSNode)).length = 0 ∧
    ¬ ((traverse (initState ["R"] [])).length ≤
        listCnt ([] : List FSNode) + (listBad ["R"] ([] : List FSNode)).length) := by
  have ht : traverse (initState ["R"] []) = [StepResult.done] :=
    traverse_of_done (t := ⟨[], none⟩) rfl
  refine ⟨ht, rfl, ?_⟩
  rw [ht]
  decide

/-- C5 (amended): for every finite tree, the traversal reaches the terminal
signal after exactly (number of reachable objects, failing entries
included) + 1 calls to `produceNext()`, hence after at most (number of
reachable objects + number of per-entry failures + 1) calls; the iterator
never loops indefinitely on an unreadable entry. -/
theorem nextEntry_call_bound_amended (root : Path) (cs : List FSNode) :
    (traverse (initState root cs)).length = listCnt cs + 1 ∧
    (traverse (initState root cs)).length ≤
      listCnt cs + (listBad root cs).length + 1 := by
  have h := traverse_length (initState root cs)
  rw [goodPaths_init, badPaths_init] at h
  have h2 := listCnt_split root cs
  constructor <;> omega

/-- C6: once `produceNext()` has returned the terminal signal, the state is
the exhausted state (empty stack, no current entry), and every subsequent
call returns the terminal signal with the state unchanged: exhaustion is
permanent. -/
theorem nextEntry_idempotent_exhaustion (s s' : IterState)
    (h : produceNext s = (.done, s')) :
    s' = ⟨[], none⟩ ∧ produceNext s' = (.done, s') := by
  have key : ∀ (st : List Frame) (cur : Option (Path × Bool)) (r : StepResult)
      (t : IterState), pnAux cur st = (r, t) → r = .done → t = ⟨[], none⟩ := by
    intro st
    induction st with
    | nil =>
      intro cur r t hh _
      simp only [pnAux] at hh
      injection hh with h1 h2
      exact h2.symm
    | cons f rest ih =>
      obtain ⟨dp, pending⟩ := f
      intro cur r t hh hr
      cases pending with
      | nil =>
        simp only [pnAux] at hh
        exact ih cur r t hh hr
      | cons c cs =>
        cases c <;>
          (simp only [pnAux] at hh; injection hh with h1 h2;
           rw [← h1] at hr; cases hr)
  have hs' := key s.stack s.current _ s' h rfl
  subst hs'
  exact ⟨rfl, rfl⟩

/-- C7: `Construct(rootPath)` fails with `NotFoundError` if nothing exists
at the root path and with `InvalidRootError` if something exists there that
is not a directory; in both failure cases no iterator state is produced,
and on success one Directory Frame for the root is pushed with the current
entry unset. -/
theorem construct_root_classification (root : Path) :
    construct root .missing = .error .notFoundError ∧
    construct root .fileObj = .error .invalidRootError ∧
    construct root .symlinkObj = .error .invalidRootError ∧
    construct root .otherObj = .error .invalidRootError ∧
    ∀ cs : List FSNode,
      construct root (.dirObj cs) = .ok ⟨[⟨root, cs⟩], none⟩ :=
  ⟨rfl, rfl, rfl, rfl, fun _ => rfl⟩

/-- C4: if `skipDirectory()` is called immediately after `produceNext()`
yields a directory D, then no subsequent `produceNext()` call, for the
remainder of the traversal, ever returns a path located under D; and the
pending frame for D (the top of the stack) is popped immediately by the
skip. -/
theorem skipDirectory_suppresses_subtree (root : Path) (cs : List FSNode)
    (hwf : wfList cs = true) {s s₂ s₃ t t' : IterState} {D p : Path} {k : Bool}
    (hreach : Reaches (initState root cs) s)
    (hyield : produceNext s = (.yielded D true, s₂))
    (hskip : skipDirectory s₂ = .ok s₃)
    (hreach₂ : Reaches s₃ t)
    (hyield₂ : produceNext t = (.yielded p k, t')) :
    isUnder p D = false ∧
    ∃ ch : List FSNode, s₂.stack = ⟨D, ch⟩ :: s₃.stack := by
  have hinv : stackInv root cs s.stack :=
    reaches_stackInv hreach (stackInv_init hwf)
  obtain ⟨dp, n, ch, cs', rest, hD, hs₂, hinv₃, hni⟩ :=
    pnAux_dir_yield s.stack s.current D s₂ hinv hyield
  obtain ⟨f, rest₂, hs₂stack, hs₃, _⟩ := skip_ok_shape hskip
  rw [hs₂] at hs₂stack
  injection hs₂stack with hf hrest
  have hs₃stack : s₃.stack = ⟨dp, cs'⟩ :: rest := by
    rw [hs₃, ← hrest]
  have hexcl := stackInv_no_under rest ⟨dp, cs'⟩ n [] hinv₃ hni
  have hpmem : p ∈ goodPaths t.stack :=
    pnAux_yield_mem t.stack t.current p k t' hyield₂
  have hpmem₃ : p ∈ goodPaths s₃.stack := reaches_goodPaths_sub hreach₂ p hpmem
  rw [hs₃stack] at hpmem₃
  have hnp := hexcl p hpmem₃
  simp only [List.append_nil] at hnp
  constructor
  · rw [hD]
    simp [isUnder, hnp]
  · exact ⟨ch, by rw [hs₂, hs₃stack, hD]⟩

/-- C8: after every successful yield by `produceNext()`, the
`currentDirectory()` query reports the yielded kind, and it reports true if
and only if the most recently yielded path is itself a directory of the
tree (the object the tree holds at that path is a directory), for every
entry kind including files, symlinks and other non-directory objects. -/
theorem currentDirectory_reports_dir (root : Path) (cs : List FSNode)
    (hwf : wfList cs = true) {s s' : IterState} {p : Path} {k : Bool}
    (hreach : Reaches (initState root cs) s)
    (hyield : produceNext s = (.yielded p k, s')) :
    currentDirectory s' = k ∧
    ∃ rel c, rel ≠ [] ∧ p = root ++ rel ∧ resolve cs rel = some c ∧
      (currentDirectory s' = true ↔ FSNode.isDirNode c = true) := by
  have hinv : stackInv root cs s.stack :=
    reaches_stackInv hreach (stackInv_init hwf)
  obtain ⟨rel, c, hp, hres, hk, hcur⟩ :=
    pnAux_yield_char s.stack s.current p k s' hinv hyield
  have hcd : currentDirectory s' = k := by
    simp [currentDirectory, hcur]
  refine ⟨hcd, rel ++ [FSNode.name c], c, by simp, by rw [hp, List.append_assoc],
    hres, ?_⟩
  rw [hcd, hk]

/-- C9: the claim says the Entry Classifier (`getType`) reports `Other` for
an existing object that is neither a directory, a regular file, nor a
symlink, and reports `NotFound` only when nothing exists at the path.  The
code does the opposite at such an object: with every classification query
answering false while the object exists (e.g. a FIFO), `getType` falls
through to `return Type::NotFound` (src/fs/file.cpp line 33), and the
enum's `Other` value is never produced. -/
theorem getType_other_object_notFound :
    getType fifoFS "/tmp/fifo" = FType.NotFound ∧
    fifoFS.ex "/tmp/fifo" = true ∧
    FType.NotFound ≠ FType.Other := by
  refine ⟨by decide, by decide, by decide⟩

/-- C10: for every pair of distinct paths src and dst where nothing exists
at dst and the object at src is neither a directory nor a regular file (in
particular when nothing exists at src), `copy(src, dst)` returns normally —
raising no error, including no `NotFoundException` — and leaves the
filesystem unchanged. -/
theorem copy_nonfile_source_noop
    (osCopyDir osCopyFile : RealFS → String → String → Except Unit RealFS)
    (fs : RealFS) (src dst : String)
    (hne : src ≠ dst) (hdst : fs.ex dst = false) :
    (fs.isDir src = false → fs.isFile src = false →
      copy osCopyDir osCopyFile fs src dst = .ok fs) ∧
    (fs.ex src = false → copy osCopyDir osCopyFile fs src dst = .ok fs) := by
  have main : fs.isDir src = false → fs.isFile src = false →
      copy osCopyDir osCopyFile fs src dst = .ok fs := by
    intro hd hf
    simp [copy, hne, hdst, hd, hf]
  exact ⟨main, fun hex => main (fs.exFalseDir src hex) (fs.exFalseFile src hex)⟩

/-- Witness for C1, at the tree R/ok.txt, R/locked (inaccessible). -/
theorem nextEntry_failure_isolation_witness :
    wfList ([FSNode.file "ok.txt"] ++ FSNode.bad "locked" :: []) = true ∧
    allGoodList [FSNode.file "ok.txt"] = true ∧
    failsOf (traverse (initState ["R"]
        ([FSNode.file "ok.txt"] ++ FSNode.bad "locked" :: []))) =
      [["R"] ++ ["locked"]] ∧
    yieldsOf (traverse (initState ["R"]
        ([FSNode.file "ok.txt"] ++ FSNode.bad "locked" :: []))) =
      yieldsOf (traverse (initState ["R"] ([FSNode.file "ok.txt"] ++ []))) ∧
    produceNext ⟨⟨["R"], FSNode.bad "locked" :: []⟩ :: [], none⟩ =
      (.failed (["R"] ++ ["locked"]), ⟨⟨["R"], []⟩ :: [], none⟩) :=
  ⟨by decide, by decide,
    (nextEntry_failure_isolation ["R"] [FSNode.file "ok.txt"] [] "locked"
      (by decide) (by decide) (by decide)).1,
    (nextEntry_failure_isolation ["R"] [FSNode.file "ok.txt"] [] "locked"
      (by decide) (by decide) (by decide)).2.1,
    (nextEntry_failure_isolation ["R"] [FSNode.file "ok.txt"] [] "locked"
      (by decide) (by decide) (by decide)).2.2.2.2 ["R"] [] [] none⟩

/-- Witness for C2, at the tree R/a/x.txt, R/b (spec scenario 7). -/
theorem nextEntry_exhaustive_coverage_witness :
    wfList [FSNode.dir "a" [FSNode.file "x.txt"], FSNode.dir "b" []] = true ∧
    allGoodList [FSNode.dir "a" [FSNode.file "x.txt"], FSNode.dir "b" []] = true ∧
    (yieldsOf (traverse (initState ["R"]
      [FSNode.dir "a" [FSNode.file "x.txt"], FSNode.dir "b" []]))).Nodup ∧
    (["R", "a", "x.txt"] ∈ yieldsOf (traverse (initState ["R"]
        [FSNode.dir "a" [FSNode.file "x.txt"], FSNode.dir "b" []])) ↔
      ∃ rel, rel ≠ [] ∧ ["R", "a", "x.txt"] = ["R"] ++ rel ∧
        (resolve [FSNode.dir "a" [FSNode.file "x.txt"], FSNode.dir "b" []]
          rel).isSome = true) :=
  ⟨by decide, by decide,
    (nextEntry_exhaustive_coverage ["R"]
      [FSNode.dir "a" [FSNode.file "x.txt"], FSNode.dir "b" []]
      (by decide) (by decide)).1,
    (nextEntry_exhaustive_coverage ["R"]
      [FSNode.dir "a" [FSNode.file "x.txt"], FSNode.dir "b" []]
      (by decide) (by decide)).2 ["R", "a", "x.txt"]⟩

/-- Witness for C3, at the tree R/a/x.txt, R/b. -/
theorem nextEntry_preorder_witness :
    wfList [FSNode.dir "a" [FSNode.file "x.txt"], FSNode.dir "b" []] = true ∧
    List.Pairwise (fun x y => isUnder x y = false)
      (yieldsOf (traverse (initState ["R"]
        [FSNode.dir "a" [FSNode.file "x.txt"], FSNode.dir "b" []]))) ∧
    yieldsOf (traverse (initState ["R"]
        [FSNode.dir "a" [FSNode.file "x.txt"], FSNode.dir "b" []])) =
      listGood ["R"] [FSNode.dir "a" [FSNode.file "x.txt"], FSNode.dir "b" []] :=
  ⟨by decide,
    (nextEntry_preorder ["R"]
      [FSNode.dir "a" [FSNode.file "x.txt"], FSNode.dir "b" []] (by decide)).1,
    (nextEntry_preorder ["R"]
      [FSNode.dir "a" [FSNode.file "x.txt"], FSNode.dir "b" []] (by decide)).2.1⟩

/-- Witness for C4, at the tree R/dir2/y, R/z: R/dir2 is yielded, skipped,
and the next yield R/z is not under R/dir2. -/
theorem skipDirectory_suppresses_subtree_witness :
    wfList [FSNode.dir "dir2" [FSNode.file "y"], FSNode.file "z"] = true ∧
    isUnder ["R", "z"] ["R", "dir2"] = false ∧
    ∃ ch : List FSNode,
      (⟨[⟨["R", "dir2"], [FSNode.file "y"]⟩, ⟨["R"], [FSNode.file "z"]⟩],
        some (["R", "dir2"], true)⟩ : IterState).stack =
      ⟨["R", "dir2"], ch⟩ ::
        (⟨[⟨["R"], [FSNode.file "z"]⟩],
          some (["R", "dir2"], true)⟩ : IterState).stack :=
  ⟨by decide,
    (skipDirectory_suppresses_subtree ["R"]
      [FSNode.dir "dir2" [FSNode.file "y"], FSNode.file "z"] (by decide)
      (Reaches.refl _)
      (rfl :
        produceNext (initState ["R"]
          [FSNode.dir "dir2" [FSNode.file "y"], FSNode.file "z"]) =
        (.yielded ["R", "dir2"] true,
          ⟨[⟨["R", "dir2"], [FSNode.file "y"]⟩, ⟨["R"], [FSNode.file "z"]⟩],
            some (["R", "dir2"], true)⟩))
      (rfl :
        skipDirectory
          ⟨[⟨["R", "dir2"], [FSNode.file "y"]⟩, ⟨["R"], [FSNode.file "z"]⟩],
            some (["R", "dir2"], true)⟩ =
        .ok ⟨[⟨["R"], [FSNode.file "z"]⟩], some (["R", "dir2"], true)⟩)
      (Reaches.refl _)
      (rfl :
        produceNext
          ⟨[⟨["R"], [FSNode.file "z"]⟩], some (["R", "dir2"], true)⟩ =
        (.yielded ["R", "z"] false,
          ⟨[⟨["R"], []⟩], some (["R", "z"], false)⟩))).1,
    (skipDirectory_suppresses_subtree ["R"]
      [FSNode.dir "dir2" [FSNode.file "y"], FSNode.file "z"] (by decide)
      (Reaches.refl _)
      (rfl :
        produceNext (initState ["R"]
          [FSNode.dir "dir2" [FSNode.file "y"], FSNode.file "z"]) =
        (.yielded ["R", "dir2"] true,
          ⟨[⟨["R", "dir2"], [FSNode.file "y"]⟩, ⟨["R"], [FSNode.file "z"]⟩],
            some (["R", "dir2"], true)⟩))
      (rfl :
        skipDirectory
          ⟨[⟨["R", "dir2"], [FSNode.file "y"]⟩, ⟨["R"], [FSNode.file "z"]⟩],
            some (["R", "dir2"], true)⟩ =
        .ok ⟨[⟨["R"], [FSNode.file "z"]⟩], some (["R", "dir2"], true)⟩)
      (Reaches.refl _)
      (rfl :
        produceNext
          ⟨[⟨["R"], [FSNode.file "z"]⟩], some (["R", "dir2"], true)⟩ =
        (.yielded ["R", "z"] false,
          ⟨[⟨["R"], []⟩], some (["R", "z"], false)⟩))).2⟩

/-- Witness for C6, from the state whose root frame is exhausted. -/
theorem nextEntry_idempotent_exhaustion_witness :
    (⟨[], none⟩ : IterState) = ⟨[], none⟩ ∧
    produceNext ⟨[], none⟩ = (.done, ⟨[], none⟩) :=
  nextEntry_idempotent_exhaustion ⟨[⟨["R"], []⟩], none⟩ ⟨[], none⟩ rfl

/-- Witness for C8, at the tree R/a.txt whose only entry is a file. -/
theorem currentDirectory_reports_dir_witness :
    wfList [FSNode.file "a.txt"] = true ∧
    currentDirectory ⟨[⟨["R"], []⟩], some (["R", "a.txt"], false)⟩ = false ∧
    ∃ rel c, rel ≠ [] ∧ ["R", "a.txt"] = ["R"] ++ rel ∧
      resolve [FSNode.file "a.txt"] rel = some c ∧
      (currentDirectory ⟨[⟨["R"], []⟩], some (["R", "a.txt"], false)⟩ = true ↔
        FSNode.isDirNode c = true) :=
  ⟨by decide,
    (currentDirectory_reports_dir ["R"] [FSNode.file "a.txt"] (by decide)
      (Reaches.refl _)
      (rfl :
        produceNext (initState ["R"] [FSNode.file "a.txt"]) =
        (.yielded ["R", "a.txt"] false,
          ⟨[⟨["R"], []⟩], some (["R", "a.txt"], false)⟩))).1,
    (currentDirectory_reports_dir ["R"] [FSNode.file "a.txt"] (by decide)
      (Reaches.refl _)
      (rfl :
        produceNext (initState ["R"] [FSNode.file "a.txt"]) =
        (.yielded ["R", "a.txt"] false,
          ⟨[⟨["R"], []⟩], some (["R", "a.txt"], false)⟩))).2⟩

/-- Witness for C10, with distinct paths at which nothing exists. -/
theorem copy_nonfile_source_noop_witness :
    ("a" : String) ≠ "b" ∧
    emptyRealFS.ex "b" = false ∧
    ((emptyRealFS.isDir "a" = false → emptyRealFS.isFile "a" = false →
      copy (fun f _ _ => .ok f) (fun f _ _ => .ok f) emptyRealFS "a" "b" =
        .ok emptyRealFS) ∧
    (emptyRealFS.ex "a" = false →
      copy (fun f _ _ => .ok f) (fun f _ _ => .ok f) emptyRealFS "a" "b" =
        .ok emptyRealFS)) :=
  ⟨by decide, rfl,
    copy_nonfile_source_noop (fun f _ _ => .ok f) (fun f _ _ => .ok f)
      emptyRealFS "a" "b" (by decide) rfl⟩

end CloudSync
